import Mathlib

/-!
Verification of the `subdomain_tool` repository (a Python subdomain
enumerator) against its natural-language specification.

The Python source is shallowly embedded: pure string manipulation becomes
functions on `String` / `List Char`, the DNS network is an explicit oracle
argument, thread-pool completion behaviour is an explicit schedule argument,
and exceptions become `Option`.  Strings are modelled over their character
lists; Python's `str.lower` / `str.strip` are modelled for the ASCII range,
which covers every hostname and wordlist character the program manipulates.
-/

namespace SubTool

/-! ## Python string primitives (ASCII model) -/

/-- Python `str.strip()` whitespace characters (ASCII):
space, tab, newline, carriage return, vertical tab, form feed. -/
def pyIsSpace (c : Char) : Bool :=
  c.toNat = 32 || c.toNat = 9 || c.toNat = 10 || c.toNat = 13 || c.toNat = 11 || c.toNat = 12

/-- Python `str.lower()` on one character (ASCII: `A`-`Z` maps to `a`-`z`). -/
def lowerChar (c : Char) : Char :=
  if 65 ≤ c.toNat ∧ c.toNat ≤ 90 then Char.ofNat (c.toNat + 32) else c

/-- Python `str.lower()` on a character list. -/
def lowerL (l : List Char) : List Char := l.map lowerChar

/-- Drop leading whitespace (`str.lstrip()`). -/
def lstripWsL (l : List Char) : List Char := l.dropWhile pyIsSpace

/-- Drop trailing whitespace (`str.rstrip()`). -/
def rstripWsL (l : List Char) : List Char := (l.reverse.dropWhile pyIsSpace).reverse

/-- Python `str.strip()`: drop whitespace on both ends. -/
def stripL (l : List Char) : List Char := rstripWsL (lstripWsL l)

/-- Python `str.strip()` on `String`. -/
def pyStrip (s : String) : String := String.mk (stripL s.data)

/-- Python `str.lower()` on `String`. -/
def pyLower (s : String) : String := String.mk (lowerL s.data)

/-- Test for `'.'` as a character (codepoint 46). -/
def isDot (c : Char) : Bool := c.toNat = 46

/-- Test for `'*'` or `'.'` as a character (codepoints 42 / 46). -/
def isStarOrDot (c : Char) : Bool := c.toNat = 42 || c.toNat = 46

/-- Python `s.rstrip('.')`: drop every trailing `'.'`. -/
def rstripDotsL (l : List Char) : List Char := (l.reverse.dropWhile isDot).reverse

/-- Python `s.rstrip('.')` on `String`. -/
def rstripDots (s : String) : String := String.mk (rstripDotsL s.data)

/-- Python `s.lstrip("*.")`: drop every leading `'*'` or `'.'` character
(the argument of `lstrip` is a character set, not a literal marker). -/
def lstripStarDotsL (l : List Char) : List Char := l.dropWhile isStarOrDot

/-- Python `s.lstrip("*.")` on `String`. -/
def lstripStarDots (s : String) : String := String.mk (lstripStarDotsL s.data)

/-- Python `s.endswith(t)`: `t` is a suffix of `s`. -/
def endswith (s t : String) : Bool := t.data.isSuffixOf s.data

/-- Python `str.splitlines()` over `'\n'` separators: segments between
newlines, with no trailing empty segment when the string ends in a newline
(the source only feeds it `name_value` fields, which use `'\n'`). -/
def splitlinesGo : List Char → List Char → List (List Char)
  | [], acc => if acc.isEmpty then [] else [acc.reverse]
  | c :: rest, acc =>
    if c.toNat = 10 then acc.reverse :: splitlinesGo rest []
    else splitlinesGo rest (c :: acc)

/-- Python `str.splitlines()` on `String`. -/
def splitlines (s : String) : List String :=
  (splitlinesGo s.data []).map String.mk

/-! ## `core/utils.py` -/

/-- Model of `utils.normalize`: `if not name: return name`, then
`name.strip().lower()`, then strip one trailing `'.'` if present. -/
def normalizeL (l : List Char) : List Char :=
  if l = [] then l
  else
    let s := lowerL (stripL l)
    if s.getLast? = some '.' then s.dropLast else s

/-- Model of `utils.normalize` on `String`. -/
def normalize (s : String) : String := String.mk (normalizeL s.data)

/-- Model of `utils.dedupe`: yield each non-empty normalized value once, in
first-seen order (the `seen` set is threaded explicitly). -/
def dedupeGo : List String → List String → List String
  | [], _ => []
  | item :: rest, seen =>
    if item = "" then dedupeGo rest seen
    else
      let n := normalize item
      if n = "" then dedupeGo rest seen
      else if n ∈ seen then dedupeGo rest seen
      else n :: dedupeGo rest (n :: seen)

/-- Model of `utils.dedupe` applied to a materialised list. -/
def dedupe (l : List String) : List String := dedupeGo l []

/-- Model of `utils.is_likely_subdomain`: the regex `^[a-z0-9\-\.]+$` on a
newline-free string — non-empty and every character in `a`-`z`, `0`-`9`,
`'-'`, `'.'` (all call sites pass `splitlines` output, which is
newline-free). -/
def is_likely_subdomain (s : String) : Bool :=
  !s.data.isEmpty && s.data.all fun c =>
    (97 ≤ c.toNat && c.toNat ≤ 122) || (48 ≤ c.toNat && c.toNat ≤ 57) ||
      c.toNat = 45 || c.toNat = 46

/-! ## `core/resolver.py` -/

/-- DNS behaviour oracle: the textual answers (`r.to_text()`) returned for
`A`, `AAAA` and `CNAME` queries of a name.  A lookup that raises
(NXDOMAIN, timeout, SERVFAIL) is modelled by the empty answer list, which
is exactly what `_safe_resolve` reduces it to. -/
structure DnsOracle where
  a : String → List String
  aaaa : String → List String
  cname : String → List String

/-- Model of `_safe_resolve(resolver, name, "A")`: each answer text has its
trailing dots stripped (`r.to_text().rstrip('.')`). -/
def safeA (o : DnsOracle) (n : String) : List String := (o.a n).map rstripDots

/-- Model of `_safe_resolve(resolver, name, "AAAA")`. -/
def safeAAAA (o : DnsOracle) (n : String) : List String := (o.aaaa n).map rstripDots

/-- Model of `_safe_resolve(resolver, name, "CNAME")`. -/
def safeCname (o : DnsOracle) (n : String) : List String := (o.cname n).map rstripDots

/-- Mutable state of `resolve_name_any`: the `results` list and the `seen`
set, plus a ghost log of the CNAME queries `(target, depth)` actually issued
by `resolve_cname`; the log has no effect on `results` or `seen`. -/
structure CState where
  results : List String
  seen : List String
  queries : List (String × Nat)

/-- Body of the `for t in cnames` loop of `resolve_cname`: every unseen
(rstripped) target is added to `seen`, recorded in `results` together with
its A/AAAA answers, and then chased one level deeper via `deep`. -/
def chaseEach (o : DnsOracle) (deep : String → CState → CState) :
    List String → CState → CState
  | [], st => st
  | t :: ts, st =>
    let t1 := rstripDots t
    if t1 ∈ st.seen then chaseEach o deep ts st
    else
      let st1 : CState :=
        ⟨st.results ++ t1 :: (safeA o t1 ++ safeAAAA o t1), t1 :: st.seen, st.queries⟩
      chaseEach o deep ts (deep t1 st1)

/-- Model of the recursive `resolve_cname`: process the CNAME answers of
the current level at `depth`; each unseen target's own CNAME chain is
followed at `depth + 1`, but only when `depth + 1 < max_depth` (the
`if depth >= max_depth: return` guard at entry to the recursive call).
`fuel` makes the recursion structural; every live call has
`maxDepth - depth ≤ fuel`, so the `0` case is dead code. -/
def chaseFuel (o : DnsOracle) (maxDepth : Nat) : Nat → Nat → List String → CState → CState
  | 0, _, _, st => st
  | fuel + 1, depth, ts, st =>
    chaseEach o
      (fun t1 st1 =>
        if maxDepth ≤ depth + 1 then st1
        else chaseFuel o maxDepth fuel (depth + 1) (safeCname o t1)
          ⟨st1.results, st1.seen, st1.queries ++ [(t1, depth + 1)]⟩)
      ts st

/-- State reached by `resolve_name_any` just before the final
deduplication: A/AAAA of the original name, then the CNAME chase rooted at
the original name (`resolve_cname(name, depth=0)`, whose entry guard skips
everything when `0 >= max_depth`). -/
def resolveState (o : DnsOracle) (name : String) (maxDepth : Nat) : CState :=
  let base := safeA o name ++ safeAAAA o name
  let st0 : CState := ⟨base, [], []⟩
  if maxDepth ≤ 0 then st0
  else chaseFuel o maxDepth maxDepth 0 (safeCname o name) ⟨st0.results, st0.seen, [(name, 0)]⟩

/-- Final dedup loop of `resolve_name_any`: `for x in results: if x not in
deduped: deduped.append(x)`. -/
def dedupFirst (l : List String) : List String :=
  l.foldl (fun acc x => if x ∈ acc then acc else acc ++ [x]) []

/-- Model of `resolve_name_any(name, timeout, nameservers, max_depth)`.
The `timeout` and `nameservers` parameters only configure the resolver
object and are absorbed into the oracle. -/
def resolve_name_any (o : DnsOracle) (name : String) (maxDepth : Nat) : List String :=
  dedupFirst (resolveState o name maxDepth).results

/-- Reference first-seen deduplication, written the way the spec describes
it: keep each element's first occurrence, drop every later duplicate. -/
def firstSeenSpec : List String → List String
  | [] => []
  | x :: xs => x :: (firstSeenSpec xs).filter (· ≠ x)

/-- Python-dict insertion: overwrite in place if the key exists, else
append. -/
def dictInsert : List (String × List String) → String → List String → List (String × List String)
  | [], k, v => [(k, v)]
  | (k1, v1) :: rest, k, v =>
    if k1 = k then (k, v) :: rest else (k1, v1) :: dictInsert rest k v

/-- Accumulation loop of `bulk_resolve`: each completed future's name is
assigned its resolved list, an exception (`oracle n = none`) becoming `[]`.
`processed` is the order in which `as_completed` delivers the futures. -/
def buildDict (processed : List String) (oracle : String → Option (List String)) :
    List (String × List String) :=
  processed.foldl (fun d n => dictInsert d n ((oracle n).getD [])) []

/-- Model of `bulk_resolve(names, concurrency, timeout, nameservers)`: one
future per element of `names`, results collected into a dict.  Completion
order only permutes the insertion order; `buildDict` is quantified over it
in the theorems. -/
def bulk_resolve (names : List String) (oracle : String → Option (List String)) :
    List (String × List String) :=
  buildDict names oracle

/-! ## `core/bruteforce.py` -/

/-- Inputs and environment of one `bruteforce_stream` run.  `taskRes id` is
what `fut.result()` eventually delivers for the `id`-th submitted task
(`none` models an exception, which the engine turns into `[]`); `doneAt id
p` is what `fut.done()` reports when drain pass number `p` polls it.
`concurrency` and `timeout` only size the pool / the DNS calls and do not
affect the stream, so they are not modelled. -/
structure BFConfig where
  domain : String
  maxPending : Nat
  skipSet : List String
  taskRes : Nat → Option (List String)
  doneAt : Nat → Nat → Bool

/-- Effective result of task `id`: `fut.result()` with exceptions caught
and replaced by `[]`. -/
def effRes (cfg : BFConfig) (id : Nat) : List String := (cfg.taskRes id).getD []

/-- Model of `skip_names = set(normalize(s) for s in skip_set if s)`:
falsy (empty) entries are dropped, the rest normalized.  Membership in the
list is the set-membership of the Python set. -/
def skipNames (skipSet : List String) : List String :=
  (skipSet.filter (fun s => s ≠ "")).map normalize

/-- Engine bookkeeping: the `pending_futures` list of `(task id, original
candidate)` pairs, the next fresh task id (= number of submissions so far),
the number of mid-stream drain passes performed, and the hostnames yielded
so far. -/
structure BFState where
  pending : List (Nat × String)
  nextId : Nat
  passes : Nat
  out : List String

/-- Initial engine state. -/
def bfInit : BFState := ⟨[], 0, 0, []⟩

/-- One drain pass (pass number `p`) over the pending list, in list order:
a task polled done yields `normalize(cand)` if its result is non-empty and
is discarded otherwise; an unfinished task is retained.  Returns
`(yielded names, retained tasks)`. -/
def drainScan (cfg : BFConfig) (p : Nat) : List (Nat × String) →
    List String × List (Nat × String)
  | [] => ([], [])
  | (id, c) :: rest =>
    if cfg.doneAt id p then
      if effRes cfg id ≠ [] then
        (normalize c :: (drainScan cfg p rest).1, (drainScan cfg p rest).2)
      else drainScan cfg p rest
    else ((drainScan cfg p rest).1, (id, c) :: (drainScan cfg p rest).2)

/-- Does this raw wordlist line survive the blank/comment/skip filters and
get submitted to the pool? -/
def wordSubmits (cfg : BFConfig) (raw : String) : Bool :=
  let w := pyStrip raw
  if w = "" then false
  else if w.data.head? = some '#' then false
  else normalize (w ++ "." ++ cfg.domain) ∉ skipNames cfg.skipSet

/-- Model of one iteration of the wordlist loop: strip the line, skip
blanks and `#` comments, skip candidates whose canonical form is in the
skip set, otherwise submit `resolve_name_any(candidate)` to the pool; then,
when the pending list has reached `max_pending`, perform a drain pass. -/
def processWord (cfg : BFConfig) (st : BFState) (raw : String) : BFState :=
  let w := pyStrip raw
  if w = "" then st
  else if w.data.head? = some '#' then st
  else
    let candidate := w ++ "." ++ cfg.domain
    if normalize candidate ∈ skipNames cfg.skipSet then st
    else
      let pending1 := st.pending ++ [(st.nextId, candidate)]
      if cfg.maxPending ≤ pending1.length then
        let scan := drainScan cfg st.passes pending1
        ⟨scan.2, st.nextId + 1, st.passes + 1, st.out ++ scan.1⟩
      else
        ⟨pending1, st.nextId + 1, st.passes, st.out⟩

/-- Engine state after the whole wordlist has been read. -/
def runWords (cfg : BFConfig) (words : List String) : BFState :=
  words.foldl (processWord cfg) bfInit

/-- Final synchronous drain: wait on every remaining future in list order
and yield each success. -/
def finalDrainOut (cfg : BFConfig) (pending : List (Nat × String)) : List String :=
  pending.filterMap fun t =>
    if effRes cfg t.1 ≠ [] then some (normalize t.2) else none

/-- Model of `bruteforce_stream(domain, wordlist_path, concurrency,
max_pending, skip_set, timeout)`: the full sequence of yielded hostnames,
for a wordlist whose raw lines are `words`.  (A missing wordlist file
short-circuits to the empty stream before any of this runs; `progress_every`
only logs.) -/
def bruteforce_stream (cfg : BFConfig) (words : List String) : List String :=
  let st := runWords cfg words
  st.out ++ finalDrainOut cfg st.pending

/-! ## `core/collector.py` -/

/-- Candidate cleanup applied to one stripped `name_value` line:
`line.lstrip("*.").rstrip(".").lower()`. -/
def crtCandidate (line : String) : String :=
  pyLower (rstripDots (lstripStarDots line))

/-- Per-line filter of `crt_sh_collect`: strip the line, drop blanks and
entries containing `'@'`, clean it into `crtCandidate`, and keep it
(normalized) only if it ends with the domain and looks like a hostname. -/
def processLine (domain : String) (line : String) : Option String :=
  let l := pyStrip line
  if l = "" then none
  else if '@' ∈ l.data then none
  else
    let candidate := crtCandidate l
    if endswith candidate domain && is_likely_subdomain candidate then
      some (normalize candidate)
    else none

/-- Post-parse processing of a successful crt.sh JSON body: iterate the
items' string `name_value` fields (an item whose field is not a string is
skipped and contributes nothing), split each into lines, filter each line,
and dedupe the collected hosts. -/
def crt_sh_process (domain : String) (nameValues : List String) : List String :=
  dedupe ((nameValues.flatMap splitlines).filterMap (processLine domain))

/-- Outcome of one HTTP fetch attempt: an exception anywhere in
`get`/`raise_for_status`/`json()` (network error, non-2xx status,
unparsable body); a 2xx JSON body that is not a list; or a JSON array whose
items carry the given `name_value` strings. -/
inductive FetchOutcome where
  | exc : FetchOutcome
  | okNotList : FetchOutcome
  | ok : List String → FetchOutcome

/-- Number of fetch attempts, `_RETRY_ATTEMPTS` in the source. -/
def RETRY_ATTEMPTS : Nat := 3

/-- Observable behaviour of one `crt_sh_collect` call: the returned list,
the number of attempts made, and the backoff sleeps performed (seconds,
`1.5 ** (attempt - 1)`, exact in binary floating point for these small
exponents, so modelled in `ℚ`). -/
structure CollectRun where
  result : List String
  attempts : Nat
  sleeps : List ℚ

/-- Retry loop of `crt_sh_collect`: attempt numbers run from 1 to
`_RETRY_ATTEMPTS`; an exception sleeps `1.5 ** (attempt - 1)` and retries
unless the attempt was the last, in which case the loop ends with
`last_exc` set and the function returns `[]`.  A non-list body returns `[]`
immediately; a list body is processed. -/
def crtLoop (domain : String) (fetch : Nat → FetchOutcome) :
    Nat → Nat → List ℚ → CollectRun
  | 0, attempt, sleeps => ⟨[], attempt, sleeps⟩
  | remaining + 1, attempt, sleeps =>
    match fetch attempt with
    | .ok nvs => ⟨crt_sh_process domain nvs, attempt, sleeps⟩
    | .okNotList => ⟨[], attempt, sleeps⟩
    | .exc =>
      if attempt < RETRY_ATTEMPTS then
        crtLoop domain fetch remaining (attempt + 1) (sleeps ++ [(3 / 2 : ℚ) ^ (attempt - 1)])
      else ⟨[], attempt, sleeps⟩

/-- Model of `crt_sh_collect(domain, timeout, calls_per_minute)`: the rate
limiter only sleeps and the timeout is absorbed into `fetch`.  `remaining`
starts at `RETRY_ATTEMPTS` and stays ahead of the attempt counter
(`RETRY_ATTEMPTS + 1 - attempt ≤ remaining` at every live call), so the
fuel-exhausted case of `crtLoop` is dead code. -/
def crt_sh_collect_run (domain : String) (fetch : Nat → FetchOutcome) : CollectRun :=
  crtLoop domain fetch RETRY_ATTEMPTS 1 []

/-! ## `cli.py` result filter -/

/-- Wildcard filter condition of `cli.main`:
`has_wildcard and wildcard_ips and set(ips).issubset(set(wildcard_ips))`. -/
def wildcardDrop (hasWildcard : Bool) (wildcardIps : List String) (ips : List String) : Bool :=
  hasWildcard && !wildcardIps.isEmpty && ips.all (· ∈ wildcardIps)

/-- Result-building loop of `cli.main`: keep `(name, ips)` only when `ips`
is non-empty and the wildcard filter does not fire. -/
def buildResults (hasWildcard : Bool) (wildcardIps : List String)
    (resMap : List (String × List String)) : List (String × List String) :=
  resMap.filter fun p => !p.2.isEmpty && !wildcardDrop hasWildcard wildcardIps p.2

/-- Is the entry `(name, ips)` dropped from the final results *as a
wildcard false positive* (as opposed to never reaching the filter because
it resolved to nothing)? -/
def droppedAsWildcard (hasWildcard : Bool) (wildcardIps : List String)
    (ips : List String) : Prop :=
  ips ≠ [] ∧ wildcardDrop hasWildcard wildcardIps ips = true

/-! ## Idempotence analysis of `normalize` -/

/-- Describes the inputs on which `normalize` fails to be idempotent: the
stripped-lowercased form ends in a dot that is preceded by another dot or
by a whitespace character, so removing the single trailing dot uncovers a
character that a second `normalize` would also remove. -/
def endsBad (s : List Char) : Bool :=
  (s.getLast? == some '.') &&
    (match s.dropLast.getLast? with
     | some c => isDot c || pyIsSpace c
     | none => false)

/-- Safe inputs for idempotence of `normalize`. -/
def normSafe (s : List Char) : Bool := !endsBad s

/-- Oracle with the two-element CNAME cycle `x -> y -> x`, used to witness
the depth bound of `resolve_name_any`. -/
def cycOracle : DnsOracle where
  a := fun n => if n = "x" then ["1.1.1.1"] else []
  aaaa := fun _ => []
  cname := fun n => if n = "x" then ["y."] else if n = "y" then ["x."] else []

/-- Soundness of the drain policy: whenever the pending list exceeds
`max_pending` at a word boundary, the step that brought it there performed
a drain pass that found every retained task unfinished. -/
def bfInvariant (cfg : BFConfig) (st : BFState) : Prop :=
  cfg.maxPending < st.pending.length →
    0 < st.passes ∧ ∀ t ∈ st.pending, cfg.doneAt t.1 (st.passes - 1) = false

/-- Engine configuration for the C3 witness: `max_pending = 1` and a
schedule on which no future ever polls done, so the pending list exceeds
`max_pending` while drain passes keep running; task 0 eventually succeeds. -/
def bfWitnessCfg : BFConfig where
  domain := "example.com"
  maxPending := 1
  skipSet := []
  taskRes := fun id => if id = 0 then some ["10.0.0.1"] else some []
  doneAt := fun _ _ => false

/-- Engine configuration for the C7 witness: the skip set already contains
both candidates (one in non-canonical form). -/
def c7Cfg : BFConfig where
  domain := "example.com"
  maxPending := 1000
  skipSet := ["WWW.Example.COM.", "mail.example.com"]
  taskRes := fun _ => some []
  doneAt := fun _ _ => false

/-! ## Claim C9: the skip set is normalized entry-wise -/

/-- Engine configuration for the concrete part of C9: a single skip-set
entry in upper case with a trailing dot. -/
def c9Cfg : BFConfig where
  domain := "example.com"
  maxPending := 1000
  skipSet := ["WWW.Example.COM."]
  taskRes := fun _ => some []
  doneAt := fun _ _ => false

/-! ## Character-level lemmas -/

theorem lowerChar_idem (c : Char) : lowerChar (lowerChar c) = lowerChar c := by
  unfold lowerChar
  split
  · rename_i h
    obtain ⟨h1, h2⟩ := h
    set k := c.toNat with hk
    interval_cases k <;> decide
  · simp

theorem pyIsSpace_lowerChar (c : Char) : pyIsSpace (lowerChar c) = pyIsSpace c := by
  unfold lowerChar
  split
  · rename_i h
    obtain ⟨h1, h2⟩ := h
    have hr : pyIsSpace c = false := by
      unfold pyIsSpace
      simp only [Bool.or_eq_false_iff, decide_eq_false_iff_not]
      omega
    rw [hr]
    set k := c.toNat with hk
    interval_cases k <;> decide
  · rfl

theorem isDot_lowerChar (c : Char) : isDot (lowerChar c) = isDot c := by
  unfold lowerChar
  split
  · rename_i h
    obtain ⟨h1, h2⟩ := h
    have hr : isDot c = false := by
      unfold isDot
      simp only [decide_eq_false_iff_not]
      omega
    rw [hr]
    set k := c.toNat with hk
    interval_cases k <;> decide
  · rfl

theorem isStarOrDot_lowerChar (c : Char) : isStarOrDot (lowerChar c) = isStarOrDot c := by
  unfold lowerChar
  split
  · rename_i h
    obtain ⟨h1, h2⟩ := h
    have hr : isStarOrDot c = false := by
      unfold isStarOrDot
      simp only [Bool.or_eq_false_iff, decide_eq_false_iff_not]
      omega
    rw [hr]
    set k := c.toNat with hk
    interval_cases k <;> decide
  · rfl

/-! ## `dropWhile` and right-strip lemmas -/

theorem dropWhile_head?_false {α} (p : α → Bool) :
    ∀ (l : List α) (c : α), (l.dropWhile p).head? = some c → p c = false := by
  intro l
  induction l with
  | nil => intro c h; simp at h
  | cons a l ih =>
    intro c h
    rw [List.dropWhile_cons] at h
    split at h
    · exact ih c h
    · rename_i hpa
      simp only [List.head?_cons, Option.some.injEq] at h
      subst h
      exact Bool.not_eq_true _ ▸ Bool.of_not_eq_true hpa

theorem dropWhile_eq_self_of_head {α} (p : α → Bool) (l : List α)
    (h : ∀ c, l.head? = some c → p c = false) : l.dropWhile p = l := by
  cases l with
  | nil => rfl
  | cons a l =>
    rw [List.dropWhile_cons, if_neg]
    simp [h a rfl]

theorem dropWhile_decomp {α} (p : α → Bool) (l : List α) :
    ∃ t, l = t ++ l.dropWhile p ∧ ∀ c ∈ t, p c = true := by
  induction l with
  | nil => exact ⟨[], rfl, by simp⟩
  | cons a l ih =>
    rw [List.dropWhile_cons]
    split
    · obtain ⟨t, ht, hall⟩ := ih
      refine ⟨a :: t, by simpa using ht, ?_⟩
      intro c hc
      rcases List.mem_cons.mp hc with h | h
      · subst h; assumption
      · exact hall c h
    · exact ⟨[], rfl, by simp⟩

theorem rstripG_getLast?_false {α} (p : α → Bool) (l : List α) (c : α)
    (h : ((l.reverse.dropWhile p).reverse).getLast? = some c) : p c = false := by
  rw [List.getLast?_reverse] at h
  exact dropWhile_head?_false p l.reverse c h

theorem rstripG_eq_self {α} (p : α → Bool) (l : List α)
    (h : ∀ c, l.getLast? = some c → p c = false) : (l.reverse.dropWhile p).reverse = l := by
  rw [dropWhile_eq_self_of_head p l.reverse, List.reverse_reverse]
  intro c hc
  rw [List.head?_reverse] at hc
  exact h c hc

theorem rstripG_decomp {α} (p : α → Bool) (l : List α) :
    ∃ t, l = (l.reverse.dropWhile p).reverse ++ t ∧ ∀ c ∈ t, p c = true := by
  obtain ⟨t, ht, hall⟩ := dropWhile_decomp p l.reverse
  refine ⟨t.reverse, ?_, ?_⟩
  · have := congrArg List.reverse ht
    simpa [List.reverse_append] using this
  · intro c hc
    exact hall c (List.mem_reverse.mp hc)

/-! ## `strip` lemmas -/

theorem stripL_getLast?_false (l : List Char) (c : Char)
    (h : (stripL l).getLast? = some c) : pyIsSpace c = false :=
  rstripG_getLast?_false pyIsSpace (lstripWsL l) c h

theorem stripL_head?_false (l : List Char) (c : Char)
    (h : (stripL l).head? = some c) : pyIsSpace c = false := by
  obtain ⟨t, ht, -⟩ := rstripG_decomp pyIsSpace (lstripWsL l)
  have h' : ((lstripWsL l).reverse.dropWhile pyIsSpace).reverse.head? = some c := h
  have hm : (lstripWsL l).head? = some c := by
    rw [ht, List.head?_append, h']
    rfl
  exact dropWhile_head?_false pyIsSpace l c hm

theorem stripL_eq_self (l : List Char)
    (h1 : ∀ c, l.head? = some c → pyIsSpace c = false)
    (h2 : ∀ c, l.getLast? = some c → pyIsSpace c = false) : stripL l = l := by
  unfold stripL rstripWsL lstripWsL
  rw [dropWhile_eq_self_of_head pyIsSpace l h1]
  exact rstripG_eq_self pyIsSpace l h2

theorem stripL_idem (l : List Char) : stripL (stripL l) = stripL l :=
  stripL_eq_self _ (stripL_head?_false l) (stripL_getLast?_false l)

theorem stripL_lowerL (l : List Char) : stripL (lowerL l) = lowerL (stripL l) := by
  have hf : (pyIsSpace ∘ lowerChar) = pyIsSpace := funext pyIsSpace_lowerChar
  unfold stripL rstripWsL lstripWsL lowerL
  simp only [List.dropWhile_map, hf, ← List.map_reverse]

theorem lowerL_idem (l : List Char) : lowerL (lowerL l) = lowerL l := by
  have hf : lowerChar ∘ lowerChar = lowerChar := funext lowerChar_idem
  simp only [lowerL, List.map_map, hf]

theorem lowerL_dropLast (l : List Char) : lowerL l.dropLast = (lowerL l).dropLast := by
  simp only [lowerL, List.dropLast_eq_take, List.map_take, List.length_map]

theorem getLast?_lowerL (m : List Char) :
    (lowerL m).getLast? = m.getLast?.map lowerChar := by
  rw [List.getLast?_eq_head?_reverse, List.getLast?_eq_head?_reverse, lowerL,
    ← List.map_reverse, List.head?_map]

theorem normalizeL_idem (l : List Char) (h : normSafe (lowerL (stripL l)) = true) :
    normalizeL (normalizeL l) = normalizeL l := by
  by_cases hl : l = []
  · subst hl; simp [normalizeL]
  · have hstrip_s : stripL (lowerL (stripL l)) = lowerL (stripL l) := by
      rw [stripL_lowerL, stripL_idem]
    have hlower_s : lowerL (lowerL (stripL l)) = lowerL (stripL l) := lowerL_idem _
    set s := lowerL (stripL l) with hs
    have hshead : ∀ c, s.head? = some c → pyIsSpace c = false := by
      intro c hc
      rw [hs, lowerL, List.head?_map] at hc
      cases hm : (stripL l).head? with
      | none => rw [hm] at hc; simp at hc
      | some c0 =>
        rw [hm] at hc
        simp only [Option.map_some', Option.some.injEq] at hc
        rw [← hc, pyIsSpace_lowerChar]
        exact stripL_head?_false l c0 hm
    have hnorm : normalizeL l = if s.getLast? = some '.' then s.dropLast else s := by
      rw [normalizeL, if_neg hl]
    by_cases hdot : s.getLast? = some '.'
    · -- the stripped-lowered form ends in a dot: one dot is removed
      rw [hnorm, if_pos hdot]
      by_cases hye : s.dropLast = []
      · rw [hye]; simp [normalizeL]
      · have hmem : '.' ∈ s.getLast? := by rw [hdot]; rfl
        have hsdecomp : s.dropLast ++ ['.'] = s := List.dropLast_append_getLast? '.' hmem
        obtain ⟨c, hyg⟩ : ∃ c, (s.dropLast).getLast? = some c := by
          cases hg : (s.dropLast).getLast? with
          | none => exact absurd (List.getLast?_eq_none_iff.mp hg) hye
          | some c => exact ⟨c, rfl⟩
        have hc : isDot c = false ∧ pyIsSpace c = false := by
          have hns := h
          unfold normSafe endsBad at hns
          rw [hdot, hyg] at hns
          simpa using hns
        have hylower : lowerL (s.dropLast) = s.dropLast := by
          rw [lowerL_dropLast, hs, lowerL_idem, ← hs]
        have hyhead : ∀ c0, (s.dropLast).head? = some c0 → pyIsSpace c0 = false := by
          intro c0 hc0
          apply hshead
          rw [← hsdecomp, List.head?_append, hc0]
          rfl
        have hylast : ∀ c0, (s.dropLast).getLast? = some c0 → pyIsSpace c0 = false := by
          intro c0 hc0
          rw [hyg] at hc0
          cases hc0
          exact hc.2
        have hystrip : stripL (s.dropLast) = s.dropLast :=
          stripL_eq_self _ hyhead hylast
        have hynotdot : (s.dropLast).getLast? ≠ some '.' := by
          rw [hyg]
          intro hcontra
          cases hcontra
          exact absurd hc.1 (by decide)
        rw [normalizeL, if_neg hye, hystrip, hylower, if_neg hynotdot]
    · -- no trailing dot: `normalize l` is the stripped-lowered form itself
      rw [hnorm, if_neg hdot]
      by_cases hse : s = []
      · rw [hse]; simp [normalizeL]
      · rw [normalizeL, if_neg hse, hstrip_s, hlower_s, if_neg hdot]

/-! ## Claim C2: idempotence of `normalize` -/

/-- C2, counterexample: `normalize` is *not* idempotent on every string.
`normalize "a.."` strips exactly one trailing dot and yields `"a."`, and a
second application yields `"a"`, so `normalize (normalize x) ≠ normalize x`
at `x = "a.."`. -/
theorem C2_normalize_not_idem :
    normalize (normalize "a..") ≠ normalize "a.." ∧
      normalize "a.." = "a." ∧ normalize (normalize "a..") = "a" := by
  decide

/-- C2 (amended): `normalize (normalize x) = normalize x` for every string
`x` — including the empty string — whose stripped-lowercased form does not
end in a dot preceded by another dot or by a whitespace character; on such
inputs (for example any input ending in `".."`) `normalize` removes one
trailing dot per application instead of being idempotent. -/
theorem C2_normalize_idem (x : String) (h : normSafe (lowerL (stripL x.data)) = true) :
    normalize (normalize x) = normalize x :=
  congrArg String.mk (normalizeL_idem x.data h)

/-- C2, witness: the amended idempotence theorem applied at the concrete
input `" WWW.Example.COM. "` (and the empty string is covered too). -/
theorem C2_normalize_idem_witness :
    normSafe (lowerL (stripL (" WWW.Example.COM. " : String).data)) = true ∧
      normalize (normalize " WWW.Example.COM. ") = normalize " WWW.Example.COM. " ∧
      normalize (normalize "") = normalize "" :=
  ⟨by decide, C2_normalize_idem " WWW.Example.COM. " (by decide),
    C2_normalize_idem "" (by decide)⟩

/-! ## Claim C5: the wildcard false-positive filter -/

/-- C5: a resolved candidate is dropped from the final results as a
wildcard false positive if and only if `has_wildcard` is true, its resolved
address list is non-empty, and every resolved address is contained in
`wildcard_ips`; concretely, with `hasWildcard = true` and
`wildcardIPs = {"1.2.3.4"}`, a candidate resolving to `["1.2.3.4"]` is
dropped while one resolving to `["1.2.3.4", "5.6.7.8"]` is kept. -/
theorem C5_wildcard_filter :
    (∀ (hasWildcard : Bool) (wildcardIps ips : List String),
      droppedAsWildcard hasWildcard wildcardIps ips ↔
        hasWildcard = true ∧ ips ≠ [] ∧ ∀ a ∈ ips, a ∈ wildcardIps) ∧
    buildResults true ["1.2.3.4"] [("a", ["1.2.3.4"]), ("b", ["1.2.3.4", "5.6.7.8"])] =
      [("b", ["1.2.3.4", "5.6.7.8"])] := by
  constructor
  · intro hasWildcard wildcardIps ips
    unfold droppedAsWildcard wildcardDrop
    constructor
    · rintro ⟨hne, hdrop⟩
      simp only [Bool.and_eq_true] at hdrop
      refine ⟨hdrop.1.1, hne, ?_⟩
      intro a ha
      have := List.all_eq_true.mp hdrop.2 a ha
      simpa using this
    · rintro ⟨hw, hne, hall⟩
      refine ⟨hne, ?_⟩
      have hipsne : ∃ a, a ∈ ips := by
        cases ips with
        | nil => exact absurd rfl hne
        | cons a t => exact ⟨a, List.mem_cons_self a t⟩
      obtain ⟨a0, ha0⟩ := hipsne
      have hwne : wildcardIps.isEmpty = false := by
        cases hw2 : wildcardIps with
        | nil => exact absurd (hw2 ▸ hall a0 ha0) (List.not_mem_nil a0)
        | cons b t => rfl
      rw [hw, hwne]
      simp only [Bool.not_false, Bool.true_and, List.all_eq_true]
      intro a ha
      simpa using hall a ha
  · decide

/-- C5, witness: the filter characterization applied at the two concrete
candidates of the claim. -/
theorem C5_wildcard_filter_witness :
    droppedAsWildcard true ["1.2.3.4"] ["1.2.3.4"] ∧
      ¬droppedAsWildcard true ["1.2.3.4"] ["1.2.3.4", "5.6.7.8"] := by
  constructor
  · exact (C5_wildcard_filter.1 true ["1.2.3.4"] ["1.2.3.4"]).mpr
      ⟨rfl, by decide, by decide⟩
  · intro hc
    have h2 := ((C5_wildcard_filter.1 true ["1.2.3.4"] ["1.2.3.4", "5.6.7.8"]).mp hc).2.2
      "5.6.7.8" (by decide)
    exact absurd h2 (by decide)

/-! ## Claim C6: the crt.sh end-to-end scenario -/

/-- C6, counterexample: on the response
`[{"name_value": "*.example.com\nwww.example.com"}]` for domain
`example.com`, the collected set is *not* exactly `{"www.example.com"}`:
the wildcard line collapses to `example.com`, which ends with the domain,
passes the hostname check, and is therefore also collected. -/
theorem C6_crt_sh_not_singleton :
    "example.com" ∈ crt_sh_process "example.com" ["*.example.com\nwww.example.com"] ∧
      ("example.com" : String) ≠ "www.example.com" := by
  decide

/-- C6 (amended): on the response
`[{"name_value": "*.example.com\nwww.example.com"}]` for domain
`example.com`, `crt_sh_collect` returns exactly
`["example.com", "www.example.com"]` (the bare wildcard marker collapses
to `example.com`, which is accepted alongside `www.example.com`). -/
theorem C6_crt_sh_scenario :
    crt_sh_process "example.com" ["*.example.com\nwww.example.com"] =
      ["example.com", "www.example.com"] := by
  decide

/-! ## Dict lemmas for `bulk_resolve` -/

theorem lookup_dictInsert_self (d : List (String × List String)) (k : String)
    (v : List String) : List.lookup k (dictInsert d k v) = some v := by
  induction d with
  | nil => simp [dictInsert, List.lookup]
  | cons p d ih =>
    obtain ⟨k1, v1⟩ := p
    rw [dictInsert]
    split
    · simp [List.lookup]
    · rename_i hne
      rw [List.lookup]
      have : (k == k1) = false := by
        simp only [beq_eq_false_iff_ne, ne_eq]
        intro hc
        exact hne hc.symm
      rw [this]
      exact ih

theorem lookup_dictInsert_ne (d : List (String × List String)) (k k' : String)
    (v : List String) (h : k' ≠ k) :
    List.lookup k' (dictInsert d k v) = List.lookup k' d := by
  have hb : (k' == k) = false := by simpa using h
  induction d with
  | nil => simp [dictInsert, List.lookup, hb]
  | cons p d ih =>
    obtain ⟨k1, v1⟩ := p
    rw [dictInsert]
    split
    · rename_i heq
      subst heq
      rw [List.lookup, List.lookup, hb]
    · rw [List.lookup, List.lookup]
      cases hbe : (k' == k1) with
      | true => rfl
      | false => exact ih

theorem dictInsert_fresh (d : List (String × List String)) (k : String)
    (v : List String) (h : ∀ p ∈ d, p.1 ≠ k) : dictInsert d k v = d ++ [(k, v)] := by
  induction d with
  | nil => rfl
  | cons p d ih =>
    obtain ⟨k1, v1⟩ := p
    rw [dictInsert, if_neg (h (k1, v1) (List.mem_cons_self _ _)),
      ih (fun q hq => h q (List.mem_cons_of_mem _ hq))]
    rfl

theorem buildDictAux_lookup_not_mem (oracle : String → Option (List String))
    (l : List String) :
    ∀ (d : List (String × List String)) (n : String), n ∉ l →
      List.lookup n (l.foldl (fun d m => dictInsert d m ((oracle m).getD [])) d) =
        List.lookup n d := by
  induction l with
  | nil => intro d n _; rfl
  | cons x l ih =>
    intro d n h
    have hnl : n ∉ l := fun hc => h (List.mem_cons_of_mem _ hc)
    have hnx : n ≠ x := fun hc => h (by rw [hc]; exact List.mem_cons_self _ _)
    rw [List.foldl_cons, ih _ n hnl, lookup_dictInsert_ne _ _ _ _ hnx]

theorem buildDict_lookup (oracle : String → Option (List String)) (l : List String) :
    ∀ (d : List (String × List String)) (n : String), n ∈ l →
      List.lookup n (l.foldl (fun d m => dictInsert d m ((oracle m).getD [])) d) =
        some ((oracle n).getD []) := by
  induction l with
  | nil => intro d n h; exact absurd h (List.not_mem_nil n)
  | cons x l ih =>
    intro d n h
    rw [List.foldl_cons]
    by_cases hl : n ∈ l
    · exact ih _ n hl
    · have hx : n = x := by
        rcases List.mem_cons.mp h with h1 | h1
        · exact h1
        · exact absurd h1 hl
      subst hx
      rw [buildDictAux_lookup_not_mem oracle l _ n hl, lookup_dictInsert_self]

theorem buildDict_nodup_append (oracle : String → Option (List String))
    (l : List String) (hl : l.Nodup) :
    ∀ (d : List (String × List String)), (∀ p ∈ d, p.1 ∉ l) →
      l.foldl (fun d m => dictInsert d m ((oracle m).getD [])) d =
        d ++ l.map (fun n => (n, (oracle n).getD [])) := by
  induction l with
  | nil => intro d _; simp
  | cons x l ih =>
    intro d hd
    have hfresh : ∀ p ∈ d, p.1 ≠ x := fun p hp hc =>
      hd p hp (by rw [hc]; exact List.mem_cons_self _ _)
    have hd2 : ∀ p ∈ d ++ [(x, (oracle x).getD [])], p.1 ∉ l := by
      intro p hp
      rcases List.mem_append.mp hp with h1 | h1
      · exact fun hc => hd p h1 (List.mem_cons_of_mem _ hc)
      · have hpx : p = (x, (oracle x).getD []) := by simpa using h1
        rw [hpx]
        exact (List.nodup_cons.mp hl).1
    rw [List.foldl_cons, dictInsert_fresh _ _ _ hfresh,
      ih (List.Nodup.of_cons hl) _ hd2]
    simp

/-! ## Claim C1: `bulk_resolve` entries -/

/-- C1, counterexample: `bulk_resolve` does *not* return `N` entries for
every list of `N` input names — the results dict collapses duplicate
names, so the two-element input `["a", "a"]` (with every lookup failing)
produces a single-entry mapping, not two entries. -/
theorem C1_bulk_resolve_not_length :
    (bulk_resolve ["a", "a"] (fun _ => none)).length ≠ (["a", "a"] : List String).length ∧
      bulk_resolve ["a", "a"] (fun _ => none) = [("a", [])] := by
  decide

/-- C1 (amended): for every list of input names, every resolver behaviour
(`oracle n = none` models a lookup raising an exception) and every
completion order of the futures, the mapping built by `bulk_resolve`
contains exactly one entry per *distinct* input name: every input name is
bound — to `[]` on failure, never omitted — and when the input names are
distinct the mapping has exactly `N` entries for `N` input names,
namely `(n, result n)` in completion order. -/
theorem C1_bulk_resolve_entries (names : List String)
    (oracle : String → Option (List String)) (order : List String)
    (hperm : order.Perm names) :
    (∀ n ∈ names, List.lookup n (buildDict order oracle) = some ((oracle n).getD [])) ∧
      (names.Nodup → (buildDict order oracle).length = names.length) ∧
      (names.Nodup →
        bulk_resolve names oracle = names.map fun n => (n, (oracle n).getD [])) := by
  refine ⟨?_, ?_, ?_⟩
  · intro n hn
    exact buildDict_lookup oracle order [] n (hperm.mem_iff.mpr hn)
  · intro hnd
    have hond : order.Nodup := (hperm.nodup_iff).mpr hnd
    rw [buildDict, buildDict_nodup_append oracle order hond [] (by simp)]
    simp [hperm.length_eq]
  · intro hnd
    rw [bulk_resolve, buildDict, buildDict_nodup_append oracle names hnd [] (by simp)]
    rfl

/-- C1, witness: the amended theorem applied to two distinct names, with
the completion order reversed relative to submission order and the second
lookup failing; the failing name is bound to `[]` and the mapping has
exactly two entries. -/
theorem C1_bulk_resolve_entries_witness :
    List.lookup "mail.example.com"
        (buildDict ["mail.example.com", "www.example.com"]
          (fun n => if n = "www.example.com" then some ["10.0.0.1"] else none)) =
      some [] ∧
    (buildDict ["mail.example.com", "www.example.com"]
        (fun n => if n = "www.example.com" then some ["10.0.0.1"] else none)).length = 2 := by
  have h := C1_bulk_resolve_entries ["www.example.com", "mail.example.com"]
    (fun n => if n = "www.example.com" then some ["10.0.0.1"] else none)
    ["mail.example.com", "www.example.com"] (by decide)
  exact ⟨h.1 "mail.example.com" (by decide), (h.2.1 (by decide)).trans (by decide)⟩

/-! ## CNAME-chase lemmas for `resolve_name_any` -/

theorem chaseEach_queries (o : DnsOracle) (deep : String → CState → CState)
    (P : List (String × Nat) → Prop)
    (hdeep : ∀ t st, P st.queries → P (deep t st).queries) :
    ∀ (ts : List String) (st : CState), P st.queries → P (chaseEach o deep ts st).queries := by
  intro ts
  induction ts with
  | nil => intro st h; exact h
  | cons t ts ih =>
    intro st h
    rw [chaseEach]
    split
    · exact ih st h
    · exact ih _ (hdeep _ _ h)

theorem chaseFuel_queries (o : DnsOracle) (maxDepth : Nat) :
    ∀ (fuel depth : Nat) (ts : List String) (st : CState),
      (∀ q d, (q, d) ∈ st.queries → d < maxDepth) →
      ∀ q d, (q, d) ∈ (chaseFuel o maxDepth fuel depth ts st).queries → d < maxDepth := by
  intro fuel
  induction fuel with
  | zero => intro depth ts st h; exact h
  | succ fuel ih =>
    intro depth ts st h
    rw [chaseFuel]
    apply chaseEach_queries o _ (fun qs => ∀ q d, (q, d) ∈ qs → d < maxDepth) ?_ ts st h
    intro t st1 h1
    by_cases hg : maxDepth ≤ depth + 1
    · rw [if_pos hg]; exact h1
    · rw [if_neg hg]
      apply ih (depth + 1) _ _
      intro q d hqd
      rcases List.mem_append.mp hqd with hin | hin
      · exact h1 q d hin
      · have : q = t ∧ d = depth + 1 := by simpa using hin
        omega

/-! ## First-seen deduplication lemmas -/

theorem dedupFirst_go (l : List String) :
    ∀ acc : List String,
      l.foldl (fun acc x => if x ∈ acc then acc else acc ++ [x]) acc =
        acc ++ (firstSeenSpec l).filter (fun a => a ∉ acc) := by
  induction l with
  | nil => intro acc; simp [firstSeenSpec]
  | cons x xs ih =>
    intro acc
    rw [List.foldl_cons, firstSeenSpec]
    by_cases hx : x ∈ acc
    · rw [if_pos hx, ih acc]
      congr 1
      rw [List.filter_cons]
      have hxf : (decide (x ∉ acc)) = false := by simpa using hx
      rw [hxf, if_neg (by simp), List.filter_filter]
      apply List.filter_congr
      intro a _
      by_cases ha : a ∈ acc
      · simp [ha]
      · have hax : a ≠ x := fun hc => ha (hc ▸ hx)
        simp [ha, hax]
    · rw [if_neg hx, ih (acc ++ [x]), List.filter_cons]
      have hxt : (decide (x ∉ acc)) = true := by simpa using hx
      rw [hxt, if_pos rfl, List.append_assoc, List.singleton_append, List.filter_filter]
      congr 2
      apply List.filter_congr
      intro a _
      by_cases hax : a = x
      · subst hax
        simp
      · by_cases ha : a ∈ acc <;> simp [hax, ha, List.mem_append]

theorem dedupFirst_eq (l : List String) : dedupFirst l = firstSeenSpec l := by
  rw [dedupFirst, dedupFirst_go l []]
  simp

theorem firstSeenSpec_nodup (l : List String) : (firstSeenSpec l).Nodup := by
  induction l with
  | nil => exact List.nodup_nil
  | cons x xs ih =>
    rw [firstSeenSpec, List.nodup_cons]
    constructor
    · intro hc
      have := (List.mem_filter.mp hc).2
      simp at this
    · exact List.Nodup.filter _ ih

/-! ## Claim C4: termination, depth bound and dedup of `resolve_name_any` -/

/-- C4: for every hostname and every DNS oracle — including CNAME chains
that cycle or are arbitrarily long — `resolve_name_any` is a total
function (so it terminates with a finite list), every CNAME query it
issues is at chain depth `< max_depth` (the exploration goes no deeper
than `max_depth` hops), and its output is the first-seen-order
deduplication of the raw results, hence duplicate-free. -/
theorem C4_resolve_name_any_depth (o : DnsOracle) (name : String) (maxDepth : Nat) :
    (∀ q d, (q, d) ∈ (resolveState o name maxDepth).queries → d < maxDepth) ∧
      resolve_name_any o name maxDepth =
        firstSeenSpec (resolveState o name maxDepth).results ∧
      (resolve_name_any o name maxDepth).Nodup := by
  have hq : ∀ q d, (q, d) ∈ (resolveState o name maxDepth).queries → d < maxDepth := by
    rw [resolveState]
    by_cases h0 : maxDepth ≤ 0
    · rw [if_pos h0]
      intro q d hqd
      simp at hqd
    · rw [if_neg h0]
      apply chaseFuel_queries
      intro q d hqd
      have : q = name ∧ d = 0 := by simpa using hqd
      omega
  refine ⟨hq, dedupFirst_eq _, ?_⟩
  rw [resolve_name_any, dedupFirst_eq]
  exact firstSeenSpec_nodup _

/-- C4, witness: on the cyclic oracle `x -> y -> x` with `max_depth = 3`,
the query `("y", 1)` is issued and the theorem bounds its depth by 3; the
run terminates with the finite deduplicated result `["1.1.1.1", "y", "x"]`. -/
theorem C4_resolve_name_any_depth_witness :
    ("y", 1) ∈ (resolveState cycOracle "x" 3).queries ∧ 1 < 3 ∧
      resolve_name_any cycOracle "x" 3 = ["1.1.1.1", "y", "x"] :=
  ⟨by decide, (C4_resolve_name_any_depth cycOracle "x" 3).1 "y" 1 (by decide), by decide⟩

/-! ## Bruteforce-engine lemmas -/

theorem drainScan_yields (cfg : BFConfig) (p : Nat) : ∀ l : List (Nat × String),
    (drainScan cfg p l).1 =
      (l.filter fun t => cfg.doneAt t.1 p && decide (effRes cfg t.1 ≠ [])).map
        (fun t => normalize t.2) := by
  intro l
  induction l with
  | nil => rfl
  | cons t rest ih =>
    obtain ⟨id, c⟩ := t
    rw [drainScan, List.filter_cons]
    by_cases hd : cfg.doneAt id p
    · by_cases hr : effRes cfg id ≠ []
      · simp [hd, hr, ih]
      · simp [hd, hr, ih]
    · simp [hd, ih]

theorem drainScan_retained (cfg : BFConfig) (p : Nat) : ∀ l : List (Nat × String),
    (drainScan cfg p l).2 = l.filter fun t => !cfg.doneAt t.1 p := by
  intro l
  induction l with
  | nil => rfl
  | cons t rest ih =>
    obtain ⟨id, c⟩ := t
    rw [drainScan, List.filter_cons]
    by_cases hd : cfg.doneAt id p
    · by_cases hr : effRes cfg id ≠ []
      · simp [hd, hr, ih]
      · simp [hd, hr, ih]
    · simp [hd, ih]

theorem processWord_invariant (cfg : BFConfig) (st : BFState) (raw : String)
    (h : bfInvariant cfg st) : bfInvariant cfg (processWord cfg st raw) := by
  unfold bfInvariant at h ⊢
  simp only [processWord]
  split_ifs with h1 h2 h3 h4
  · exact h
  · exact h
  · exact h
  · intro _
    refine ⟨Nat.succ_pos _, ?_⟩
    intro t ht
    simp only [Nat.add_sub_cancel]
    rw [drainScan_retained] at ht
    have := (List.mem_filter.mp ht).2
    simpa using this
  · intro hlen
    exfalso
    simp only [List.length_append, List.length_cons, List.length_nil] at hlen h4
    omega

theorem foldl_processWord_invariant (cfg : BFConfig) :
    ∀ (ws : List String) (st : BFState), bfInvariant cfg st →
      bfInvariant cfg (ws.foldl (processWord cfg) st) := by
  intro ws
  induction ws with
  | nil => intro st h; exact h
  | cons w ws ih =>
    intro st h
    rw [List.foldl_cons]
    exact ih _ (processWord_invariant cfg st w h)

theorem runWords_invariant (cfg : BFConfig) (words : List String) :
    bfInvariant cfg (runWords cfg words) := by
  apply foldl_processWord_invariant
  intro hlen
  simp [bfInit] at hlen

theorem wordSubmits_iff (cfg : BFConfig) (raw : String) :
    wordSubmits cfg raw = true ↔
      pyStrip raw ≠ "" ∧ (pyStrip raw).data.head? ≠ some '#' ∧
        normalize (pyStrip raw ++ "." ++ cfg.domain) ∉ skipNames cfg.skipSet := by
  simp only [wordSubmits]
  split_ifs with h1 h2
  · simp [h1]
  · simp [h1, h2]
  · simp [h1, h2]

theorem processWord_passes (cfg : BFConfig) (st : BFState) (raw : String) :
    (processWord cfg st raw).passes = st.passes + 1 ↔
      wordSubmits cfg raw = true ∧ cfg.maxPending ≤ st.pending.length + 1 := by
  simp only [processWord, wordSubmits]
  split_ifs with h1 h2 h3 h4
  · simp
  · simp
  · simp [h3]
  · simp only [List.length_append, List.length_cons, List.length_nil] at h4
    simp [h3, h4]
  · simp only [List.length_append, List.length_cons, List.length_nil] at h4
    simp [h4]

theorem processWord_drain_eq (cfg : BFConfig) (st : BFState) (raw : String)
    (hsub : wordSubmits cfg raw = true)
    (hfull : cfg.maxPending ≤ st.pending.length + 1) :
    (processWord cfg st raw).pending =
        (drainScan cfg st.passes
          (st.pending ++ [(st.nextId, pyStrip raw ++ "." ++ cfg.domain)])).2 ∧
      (processWord cfg st raw).out =
        st.out ++ (drainScan cfg st.passes
          (st.pending ++ [(st.nextId, pyStrip raw ++ "." ++ cfg.domain)])).1 := by
  obtain ⟨h1, h2, h3⟩ := (wordSubmits_iff cfg raw).mp hsub
  simp only [processWord]
  rw [if_neg h1, if_neg h2, if_neg h3, if_pos]
  · exact ⟨rfl, rfl⟩
  · simpa using hfull

theorem mem_bruteforce_stream_final (cfg : BFConfig) (words : List String) :
    ∀ t ∈ (runWords cfg words).pending, effRes cfg t.1 ≠ [] →
      normalize t.2 ∈ bruteforce_stream cfg words := by
  intro t ht hres
  simp only [bruteforce_stream, finalDrainOut]
  apply List.mem_append_right
  apply List.mem_filterMap.mpr
  exact ⟨t, ht, by rw [if_pos hres]⟩

/-! ## Claim C3: backpressure of `bruteforce_stream` -/

/-- C3: during any run of `bruteforce_stream`, (1) the pending list only
ever exceeds `max_pending` at a word boundary when a drain pass was just
performed and every retained task polled unfinished — the engine never
accumulates more than `max_pending` unresolved tasks without scanning; (2)
a drain pass yields exactly the canonical names of the completed tasks
with non-empty results in scan order, discards completed empty results and
retains unfinished tasks; (3) a drain pass happens at a step exactly when
the step submits a task and the pending list thereby reaches
`max_pending`; and (4) the final synchronous drain yields every remaining
success before the stream ends. -/
theorem C3_backpressure (cfg : BFConfig) (words : List String) :
    (∀ pre suf, words = pre ++ suf →
      cfg.maxPending < (runWords cfg pre).pending.length →
        0 < (runWords cfg pre).passes ∧
          ∀ t ∈ (runWords cfg pre).pending,
            cfg.doneAt t.1 ((runWords cfg pre).passes - 1) = false) ∧
      (∀ (p : Nat) (l : List (Nat × String)),
        (drainScan cfg p l).1 =
            (l.filter fun t => cfg.doneAt t.1 p && decide (effRes cfg t.1 ≠ [])).map
              (fun t => normalize t.2) ∧
          (drainScan cfg p l).2 = l.filter fun t => !cfg.doneAt t.1 p) ∧
      (∀ (st : BFState) (raw : String),
        (processWord cfg st raw).passes = st.passes + 1 ↔
          wordSubmits cfg raw = true ∧ cfg.maxPending ≤ st.pending.length + 1) ∧
      (∀ t ∈ (runWords cfg words).pending, effRes cfg t.1 ≠ [] →
        normalize t.2 ∈ bruteforce_stream cfg words) := by
  refine ⟨?_, ?_, processWord_passes cfg, mem_bruteforce_stream_final cfg words⟩
  · intro pre _ _ hlen
    exact runWords_invariant cfg pre hlen
  · intro p l
    exact ⟨drainScan_yields cfg p l, drainScan_retained cfg p l⟩

/-- C3, witness: on `bfWitnessCfg` with wordlist `["a", "b"]`, the pending
list ends with 2 > 1 tasks, the theorem yields a performed drain pass, and
the final drain puts the remaining success `a.example.com` on the stream. -/
theorem C3_backpressure_witness :
    bfWitnessCfg.maxPending < (runWords bfWitnessCfg ["a", "b"]).pending.length ∧
      0 < (runWords bfWitnessCfg ["a", "b"]).passes ∧
      (0, "a.example.com") ∈ (runWords bfWitnessCfg ["a", "b"]).pending ∧
      normalize "a.example.com" ∈ bruteforce_stream bfWitnessCfg ["a", "b"] := by
  have h := C3_backpressure bfWitnessCfg ["a", "b"]
  exact ⟨by decide, (h.1 ["a", "b"] [] rfl (by decide)).1, by decide,
    h.2.2.2 (0, "a.example.com") (by decide) (by decide)⟩

/-! ## Claim C7: fully-skipped wordlists -/

theorem processWord_noop (cfg : BFConfig) (st : BFState) (raw : String)
    (h : pyStrip raw ≠ "" → (pyStrip raw).data.head? ≠ some '#' →
      normalize (pyStrip raw ++ "." ++ cfg.domain) ∈ skipNames cfg.skipSet) :
    processWord cfg st raw = st := by
  simp only [processWord]
  split_ifs with h1 h2 h3 h4
  · rfl
  · rfl
  · rfl
  · exact absurd (h h1 h2) h3
  · exact absurd (h h1 h2) h3

theorem foldl_processWord_noop (cfg : BFConfig) :
    ∀ (ws : List String) (st : BFState),
      (∀ raw ∈ ws, pyStrip raw ≠ "" → (pyStrip raw).data.head? ≠ some '#' →
        normalize (pyStrip raw ++ "." ++ cfg.domain) ∈ skipNames cfg.skipSet) →
      ws.foldl (processWord cfg) st = st := by
  intro ws
  induction ws with
  | nil => intro st _; rfl
  | cons w ws ih =>
    intro st h
    rw [List.foldl_cons, processWord_noop cfg st w (h w (List.mem_cons_self _ _))]
    exact ih st fun raw hr => h raw (List.mem_cons_of_mem _ hr)

/-- C7: over a wordlist in which every non-blank, non-comment word's
candidate `word + "." + domain` has its canonical form in the skip set,
`bruteforce_stream` yields no hostname and submits zero resolution tasks
(`nextId` stays 0 and the pending list stays empty: no network call is
issued). -/
theorem C7_bruteforce_all_skipped (cfg : BFConfig) (words : List String)
    (h : ∀ raw ∈ words, pyStrip raw ≠ "" → (pyStrip raw).data.head? ≠ some '#' →
      normalize (pyStrip raw ++ "." ++ cfg.domain) ∈ skipNames cfg.skipSet) :
    bruteforce_stream cfg words = [] ∧ (runWords cfg words).nextId = 0 ∧
      (runWords cfg words).pending = [] := by
  have hrun : runWords cfg words = bfInit := foldl_processWord_noop cfg words bfInit h
  refine ⟨?_, ?_, ?_⟩
  · simp only [bruteforce_stream, hrun, bfInit, finalDrainOut]
    rfl
  · rw [hrun]; rfl
  · rw [hrun]; rfl

/-- C7, witness: wordlist `["www", "#comment", "", "mail"]` against a skip
set holding both candidates — the stream is empty and no task is ever
submitted. -/
theorem C7_bruteforce_all_skipped_witness :
    bruteforce_stream c7Cfg ["www", "#comment", "", "mail"] = [] ∧
      (runWords c7Cfg ["www", "#comment", "", "mail"]).nextId = 0 := by
  have h := C7_bruteforce_all_skipped c7Cfg ["www", "#comment", "", "mail"] (by decide)
  exact ⟨h.1, h.2.1⟩

/-- C9: `bruteforce_stream` normalizes each skip-set entry before any
membership test — a candidate is in the skip set iff some non-empty entry
normalizes to the candidate's canonical form, so a non-canonical entry
(upper case, trailing dot) still causes the matching candidate to be
skipped (the run with skip set `["WWW.Example.COM."]` submits no task for
`"www"`), and empty (falsy) entries are simply ignored. -/
theorem C9_skip_set_normalized :
    (∀ (skipSet : List String) (c : String),
      c ∈ skipNames skipSet ↔ ∃ s ∈ skipSet, s ≠ "" ∧ normalize s = c) ∧
      (∀ skipSet : List String,
        skipNames skipSet = skipNames (skipSet.filter fun s => s ≠ "")) ∧
      (runWords c9Cfg ["www"]).nextId = 0 ∧
      skipNames ["", "WWW.Example.COM."] = ["www.example.com"] := by
  refine ⟨?_, ?_, by decide, by decide⟩
  · intro skipSet c
    simp only [skipNames, List.mem_map, List.mem_filter]
    constructor
    · rintro ⟨s, ⟨hs, hne⟩, heq⟩
      exact ⟨s, hs, by simpa using hne, heq⟩
    · rintro ⟨s, hs, hne, heq⟩
      exact ⟨s, ⟨hs, by simpa using hne⟩, heq⟩
  · intro skipSet
    simp only [skipNames, List.filter_filter]
    have hp : (fun (a : String) => decide (a ≠ "") && decide (a ≠ "")) =
        fun a => decide (a ≠ "") := by
      funext a
      exact Bool.and_self _
    rw [hp]

/-- C9, witness: the membership characterization applied to the concrete
non-canonical entry `"WWW.Example.COM."`. -/
theorem C9_skip_set_normalized_witness :
    "www.example.com" ∈ skipNames ["WWW.Example.COM."] :=
  (C9_skip_set_normalized.1 ["WWW.Example.COM."] "www.example.com").mpr
    ⟨"WWW.Example.COM.", by decide, by decide, by decide⟩

/-! ## Claim C8: collector retry exhaustion -/

/-- C8: when every fetch attempt fails transiently, `crt_sh_collect` makes
exactly `_RETRY_ATTEMPTS = 3` attempts, sleeps the exponential backoff
delays `1.5^0` and `1.5^1` seconds between them, and then returns the
empty collection instead of propagating the exception. -/
theorem C8_collector_retries (domain : String) (fetch : Nat → FetchOutcome)
    (h : ∀ a, fetch a = FetchOutcome.exc) :
    (crt_sh_collect_run domain fetch).result = [] ∧
      (crt_sh_collect_run domain fetch).attempts = RETRY_ATTEMPTS ∧
      (crt_sh_collect_run domain fetch).sleeps = [(3 / 2 : ℚ) ^ 0, (3 / 2 : ℚ) ^ 1] := by
  have e : crt_sh_collect_run domain fetch =
      ⟨[], 3, [(3 / 2 : ℚ) ^ (1 - 1), (3 / 2 : ℚ) ^ (2 - 1)]⟩ := by
    rw [crt_sh_collect_run]
    show crtLoop domain fetch 3 1 [] = _
    rw [show (3 : Nat) = 2 + 1 from rfl, crtLoop, h 1, if_pos (by decide)]
    rw [show (2 : Nat) = 1 + 1 from rfl, crtLoop, h 2, if_pos (by decide)]
    rw [show (1 : Nat) = 0 + 1 from rfl, crtLoop, h 3, if_neg (by decide)]
    rfl
  rw [e]
  exact ⟨rfl, rfl, rfl⟩

/-- C8, witness: the theorem applied to the always-failing fetch. -/
theorem C8_collector_retries_witness :
    ((fun _ => FetchOutcome.exc) 1 = FetchOutcome.exc) ∧
      (crt_sh_collect_run "example.com" fun _ => FetchOutcome.exc).result = [] ∧
      (crt_sh_collect_run "example.com" fun _ => FetchOutcome.exc).attempts =
        RETRY_ATTEMPTS := by
  have h := C8_collector_retries "example.com" (fun _ => FetchOutcome.exc) fun _ => rfl
  exact ⟨rfl, h.1, h.2.1⟩

/-! ## Claim C10: the per-line wildcard/dot stripping -/

theorem rstripG_head?_of {α} (p : α → Bool) (l : List α) (c : α)
    (h : ((l.reverse.dropWhile p).reverse).head? = some c) : l.head? = some c := by
  obtain ⟨t, ht, -⟩ := rstripG_decomp p l
  rw [ht, List.head?_append, h]
  rfl

theorem crtCandidate_head (line : String) (c : Char)
    (h : (crtCandidate line).data.head? = some c) : isStarOrDot c = false := by
  have h' : (lowerL (rstripDotsL (lstripStarDotsL line.data))).head? = some c := h
  rw [lowerL, List.head?_map] at h'
  cases hm : (rstripDotsL (lstripStarDotsL line.data)).head? with
  | none => rw [hm] at h'; simp at h'
  | some c0 =>
    rw [hm] at h'
    simp only [Option.map_some', Option.some.injEq] at h'
    rw [← h', isStarOrDot_lowerChar]
    have hy : (lstripStarDotsL line.data).head? = some c0 :=
      rstripG_head?_of isDot (lstripStarDotsL line.data) c0 hm
    exact dropWhile_head?_false isStarOrDot line.data c0 hy

theorem crtCandidate_last (line : String) (c : Char)
    (h : (crtCandidate line).data.getLast? = some c) : isDot c = false := by
  have h' : (lowerL (rstripDotsL (lstripStarDotsL line.data))).getLast? = some c := h
  rw [getLast?_lowerL] at h'
  cases hm : (rstripDotsL (lstripStarDotsL line.data)).getLast? with
  | none => rw [hm] at h'; simp at h'
  | some c0 =>
    rw [hm] at h'
    simp only [Option.map_some', Option.some.injEq] at h'
    rw [← h', isDot_lowerChar]
    exact rstripG_getLast?_false isDot (lstripStarDotsL line.data) c0 hm

/-- C10: the per-line cleanup of `crt_sh_collect` strips *all* leading
`'*'` and `'.'` characters (not just one `"*."` marker) and *all* trailing
dots before the ends-with-domain and character-class checks: the cleaned
candidate never starts with `'*'` or `'.'` and never ends with `'.'`, and
the line `"*.*.sub.example.com"` contributes exactly the candidate
`"sub.example.com"`. -/
theorem C10_crt_line_cleanup :
    (∀ (line : String) (c : Char),
      (crtCandidate line).data.head? = some c → isStarOrDot c = false) ∧
      (∀ (line : String) (c : Char),
        (crtCandidate line).data.getLast? = some c → isDot c = false) ∧
      crtCandidate "*.*.sub.example.com" = "sub.example.com" ∧
      crt_sh_process "example.com" ["*.*.sub.example.com"] = ["sub.example.com"] :=
  ⟨crtCandidate_head, crtCandidate_last, by decide, by decide⟩

/-- C10, witness: the head/last bounds of the cleanup applied at the
concrete line `"*.x."`, whose cleaned candidate is `"x"`. -/
theorem C10_crt_line_cleanup_witness :
    (crtCandidate "*.x.").data.head? = some 'x' ∧ isStarOrDot 'x' = false ∧
      (crtCandidate "*.x.").data.getLast? = some 'x' ∧ isDot 'x' = false :=
  ⟨by decide, C10_crt_line_cleanup.1 "*.x." 'x' (by decide), by decide,
    C10_crt_line_cleanup.2.1 "*.x." 'x' (by decide)⟩

end SubTool
